import Mathlib

/-!
Verification of the price-combination search engine of the Pricing_Master
repository (files `PricingMaster.py` and `appPricingBoletos.py`).

Python floats are modelled as rationals, `round(x, 2)` as round-half-to-even
on rationals, and the `random` module as an explicit stream `u : ℕ → ℚ` of
unit draws, with `random.uniform(a, b) = a + (b - a) * u_k`.
-/

namespace Pricing

/-- A seating section: `{'name': ..., 'seats': ...}` in the source. -/
structure Section where
  name : String
  seats : ℕ

/-- Round a rational to the nearest integer, ties to even (Python `round`). -/
def roundHalfEven (q : ℚ) : ℤ :=
  if q - Rat.floor q < 1/2 then Rat.floor q
  else if 1/2 < q - Rat.floor q then Rat.floor q + 1
  else if Rat.floor q % 2 = 0 then Rat.floor q else Rat.floor q + 1

/-- Python `round(x, 2)`: round to two decimal places. -/
def round2 (x : ℚ) : ℚ := (roundHalfEven (100 * x) : ℚ) / 100

/-- `random.uniform(a, b)` is `a + (b - a) * random()`, with the unit draw
`u` of `random()` made explicit. -/
def uniform (a b u : ℚ) : ℚ := a + (b - a) * u

/-- The sell-through-rate lookup `{"alta": 0.98, "moderada": 0.90,
"baja": 0.85}.get(scenario, 0.95)` appearing in both source files. -/
def sellRate (scenario : String) : ℚ :=
  (if scenario = "alta" then some (98/100)
   else if scenario = "moderada" then some (90/100)
   else if scenario = "baja" then some (85/100)
   else none).getD (95/100)

/-- The margin check
`all(combo[i] >= margin_factor * combo[i+1] for i in range(len(combo)-1))`. -/
def isValid (margin_factor : ℚ) : List ℚ → Bool
  | [] => true
  | [_] => true
  | a :: b :: l => decide (margin_factor * b ≤ a) && isValid margin_factor (b :: l)

/-- `itertools.product`: the first list varies slowest, the last fastest. -/
def product : List (List ℚ) → List (List ℚ)
  | [] => [[]]
  | l :: ls => l.flatMap (fun x => (product ls).map (x :: ·))

/-- Number of tuples in the Cartesian product of the given lists. -/
def prodLen (ls : List (List ℚ)) : ℕ := (ls.map List.length).prod

/-- The `k`-th tuple of the Cartesian product in lexicographic product order
(first coordinate varies slowest, last fastest), by mixed-radix indexing. -/
def tupleAt : List (List ℚ) → ℕ → List ℚ
  | [], _ => []
  | l :: ls, k => l.getD (k / prodLen ls) 0 :: tupleAt ls (k % prodLen ls)

/-- `sum(sec['seats'] * sell_rate * price for price, sec in zip(combo, sections))`
from `compute_revenue_for_combo` in `PricingMaster.py`; the same expression is
inlined in `heuristic_price_search` in `appPricingBoletos.py`. -/
def compute_revenue_for_combo (combo : List ℚ) (sections : List Section)
    (scenario : String) : ℚ :=
  ((combo.zip sections).map (fun ps => (ps.2.seats : ℚ) * sellRate scenario * ps.1)).sum

/-- The revenue sum at an explicitly given sell-through rate; used to state
claims whose rate is spelled out numerically. -/
def revenueAtRate (rate : ℚ) (combo : List ℚ) (sections : List Section) : ℚ :=
  ((combo.zip sections).map (fun ps => (ps.2.seats : ℚ) * rate * ps.1)).sum

/-- One update of the pair `(best_combo, best_diff)` tracked by the heuristic
loops; `none` stands for `best_combo = None, best_diff = inf`. -/
def bestStep (valid : List ℚ → Bool) (score : List ℚ → ℚ)
    (acc : Option (List ℚ × ℚ)) (combo : List ℚ) : Option (List ℚ × ℚ) :=
  if valid combo then
    match acc with
    | none => some (combo, score combo)
    | some (b, bd) => if score combo < bd then some (combo, score combo) else some (b, bd)
  else acc

/-- The unit draws consumed by trial `t` when each trial draws `n` values. -/
def draws (u : ℕ → ℚ) (n t : ℕ) : List ℚ := (List.range n).map (fun i => u (t * n + i))

namespace PricingMaster

/-- `generate_candidate_prices` from `PricingMaster.py`; note the guard is
`global_max == global_min`, not `<=`. -/
def generate_candidate_prices (global_min global_max : ℚ) (scenario : String) : List ℚ :=
  if global_max = global_min then [global_min]
  else
    let step := (global_max - global_min) / 8
    let candidates := (List.range 9).map (fun i : ℕ => round2 (global_min + (i : ℚ) * step))
    if scenario = "alta" then candidates.drop 6
    else if scenario = "moderada" then (candidates.drop 3).take 3
    else if scenario = "baja" then candidates.take 3
    else candidates

/-- `generate_combinations` from `PricingMaster.py`: filter the first
100000 tuples of the product of one candidate list per section. -/
def generate_combinations (sections : List Section) (scenario : String)
    (global_min global_max margin_factor : ℚ) : List (List ℚ) :=
  let candidate_lists := (List.range sections.length).map
    (fun _ => generate_candidate_prices global_min global_max scenario)
  ((product candidate_lists).take 100000).filter (fun combo => isValid margin_factor combo)

/-- One trial's chain in `heuristic_search`:
`price = random.uniform(global_min, prev_price / margin_factor)`, the rounded
price is appended and `prev_price` becomes the unrounded draw. -/
def chain (global_min margin_factor : ℚ) : ℚ → List ℚ → List ℚ
  | _, [] => []
  | prev_price, d :: ds =>
    let price := uniform global_min (prev_price / margin_factor) d
    round2 price :: chain global_min margin_factor price ds

/-- The combo built by trial `t` of `heuristic_search` (one draw per section). -/
def trial (sections : List Section) (global_min global_max margin_factor : ℚ)
    (u : ℕ → ℚ) (t : ℕ) : List ℚ :=
  chain global_min margin_factor global_max (draws u sections.length t)

/-- `heuristic_search` from `PricingMaster.py`: 10000 trials, keep the valid
combo of minimal `abs(revenue - target)`, scoring with scenario `"alta"`. -/
def heuristic_search (target : ℚ) (sections : List Section)
    (global_min global_max margin_factor : ℚ) (u : ℕ → ℚ) : Option (List ℚ) :=
  ((List.range 10000).foldl
    (fun acc t =>
      bestStep (fun c => isValid margin_factor c)
        (fun c => |compute_revenue_for_combo c sections "alta" - target|) acc
        (trial sections global_min global_max margin_factor u t))
    none).map Prod.fst

end PricingMaster

namespace AppPricingBoletos

/-- `generate_candidate_prices` from `appPricingBoletos.py`; the guard here is
`global_max <= global_min`, and the scenario window is a dict lookup. -/
def generate_candidate_prices (global_min global_max : ℚ) (scenario : String) : List ℚ :=
  if global_max ≤ global_min then [global_min]
  else
    let step := (global_max - global_min) / 8
    let candidates := (List.range 9).map (fun i : ℕ => round2 (global_min + (i : ℚ) * step))
    if scenario = "alta" then candidates.drop 6
    else if scenario = "moderada" then (candidates.drop 3).take 3
    else if scenario = "baja" then candidates.take 3
    else candidates

/-- The per-section candidate lists built by `generate_valid_combinations`:
first section pinned to `round(global_max, 2)`, last to `round(global_min, 2)`,
interior sections use the scenario-windowed grid. -/
def gvcCandidates (sections : List Section) (scenario : String)
    (global_min global_max : ℚ) : List (List ℚ) :=
  (List.range sections.length).map (fun i =>
    if i = 0 then [round2 global_max]
    else if i = sections.length - 1 then [round2 global_min]
    else generate_candidate_prices global_min global_max scenario)

/-- `generate_valid_combinations` from `appPricingBoletos.py`. -/
def generate_valid_combinations (sections : List Section) (scenario : String)
    (global_min global_max margin_factor : ℚ) : List (List ℚ) :=
  ((product (gvcCandidates sections scenario global_min global_max)).take 100000).filter
    (fun combo => isValid margin_factor combo)

/-- The interior-section chain of `heuristic_price_search`:
`price = random.uniform(max(global_min, prev/mf * 0.95), prev/mf)`, the rounded
price is appended and `prev_price` becomes the unrounded draw. -/
def chain (global_min margin_factor : ℚ) : ℚ → List ℚ → List ℚ
  | _, [] => []
  | prev_price, d :: ds =>
    let min_price := max global_min (prev_price / margin_factor * (95/100))
    let max_price := prev_price / margin_factor
    let price := uniform min_price max_price d
    round2 price :: chain global_min margin_factor price ds

/-- The combo built by trial `t` of `heuristic_price_search`: pinned first and
last prices around `len(sections) - 2` sampled interior prices. -/
def trial (sections : List Section) (global_min global_max margin_factor : ℚ)
    (u : ℕ → ℚ) (t : ℕ) : List ℚ :=
  (round2 global_max :: chain global_min margin_factor global_max
    (draws u (sections.length - 2) t)) ++ [round2 global_min]

/-- `heuristic_price_search` from `appPricingBoletos.py`: 10000 trials, keep
the valid combo of minimal `abs(revenue - target)`, scoring with the
caller-specified scenario's sell-through rate. -/
def heuristic_price_search (target : ℚ) (sections : List Section)
    (global_min global_max margin_factor : ℚ) (scenario : String)
    (u : ℕ → ℚ) : Option (List ℚ) :=
  ((List.range 10000).foldl
    (fun acc t =>
      bestStep (fun c => isValid margin_factor c)
        (fun c => |compute_revenue_for_combo c sections scenario - target|) acc
        (trial sections global_min global_max margin_factor u t))
    none).map Prod.fst

/-- The sort key used in `main`:
`abs(sum(p * s['seats'] * 0.95 for p, s in zip(x, sections)) - target)`. -/
def rankKey (sections : List Section) (target : ℚ) (x : List ℚ) : ℚ :=
  |((x.zip sections).map (fun ps => ps.1 * (ps.2.seats : ℚ) * (95/100))).sum - target|

/-- The comparison underlying `sorted(combos, key=...)` in `main`. -/
def rankLE (sections : List Section) (target : ℚ) (a b : List ℚ) : Prop :=
  rankKey sections target a ≤ rankKey sections target b

instance (sections : List Section) (target : ℚ) : DecidableRel (rankLE sections target) :=
  fun _ _ => inferInstanceAs (Decidable (_ ≤ _))

/-- `sorted(combos, key=lambda x: abs(... - target))[:3]` from `main`
(Python `sorted` is a stable sort, modelled by stable insertion sort). -/
def top_combos (combos : List (List ℚ)) (sections : List Section) (target : ℚ) :
    List (List ℚ) :=
  (List.insertionSort (rankLE sections target) combos).take 3

end AppPricingBoletos

/-! ### Basic lemmas about the embedded primitives -/

theorem ratFloor_eq_floor (q : ℚ) : Rat.floor q = ⌊q⌋ :=
  (Rat.floor_def' q).trans Rat.floor_def.symm

theorem roundHalfEven_bounds (q : ℚ) :
    q - 1/2 ≤ (roundHalfEven q : ℚ) ∧ (roundHalfEven q : ℚ) ≤ q + 1/2 := by
  have h0 : (⌊q⌋ : ℚ) ≤ q := Int.floor_le q
  have h1 : q < ⌊q⌋ + 1 := Int.lt_floor_add_one q
  unfold roundHalfEven
  simp only [ratFloor_eq_floor]
  split_ifs with hf hg he <;> constructor <;> push_cast <;> linarith

theorem round2_ge (x : ℚ) : x - 1/200 ≤ round2 x := by
  have h := (roundHalfEven_bounds (100 * x)).1
  unfold round2
  linarith

theorem round2_le (x : ℚ) : round2 x ≤ x + 1/200 := by
  have h := (roundHalfEven_bounds (100 * x)).2
  unfold round2
  linarith

theorem uniform_bounds (a b u : ℚ) (h0 : 0 ≤ u) (h1 : u ≤ 1) :
    min a b ≤ uniform a b u ∧ uniform a b u ≤ max a b := by
  unfold uniform
  rcases le_total a b with hab | hab
  · rw [min_eq_left hab, max_eq_right hab]
    constructor
    · nlinarith [mul_nonneg (sub_nonneg.mpr hab) h0]
    · nlinarith [mul_nonneg (sub_nonneg.mpr hab) (sub_nonneg.mpr h1)]
  · rw [min_eq_right hab, max_eq_left hab]
    constructor
    · nlinarith [mul_nonneg (sub_nonneg.mpr hab) (sub_nonneg.mpr h1)]
    · nlinarith [mul_nonneg (sub_nonneg.mpr hab) h0]

theorem isValid_iff (mf : ℚ) : ∀ l : List ℚ, isValid mf l = true ↔
    ∀ i, i + 1 < l.length → mf * l.getD (i + 1) 0 ≤ l.getD i 0
  | [] => by simp [isValid]
  | [a] => by simp [isValid]
  | a :: b :: l => by
    rw [isValid, Bool.and_eq_true, decide_eq_true_eq, isValid_iff mf (b :: l)]
    constructor
    · rintro ⟨h1, h2⟩ i hi
      cases i with
      | zero => simpa using h1
      | succ j =>
        have hj : j + 1 < (b :: l).length := by
          simp only [List.length_cons] at hi ⊢; omega
        simpa using h2 j hj
    · intro h
      refine ⟨by simpa using h 0 (by simp), fun i hi => ?_⟩
      have hi' : i + 1 + 1 < (a :: b :: l).length := by
        simp only [List.length_cons] at hi ⊢; omega
      simpa using h (i + 1) hi'

theorem pairwise_of_forall_mem {α : Type} {R : α → α → Prop} :
    ∀ {l : List α}, (∀ a ∈ l, ∀ b ∈ l, R a b) → l.Pairwise R
  | [], _ => List.Pairwise.nil
  | a :: l, h => by
    rw [List.pairwise_cons]
    exact ⟨fun b hb => h a (by simp) b (by simp [hb]),
      pairwise_of_forall_mem fun x hx y hy => h x (by simp [hx]) y (by simp [hy])⟩

theorem foldl_const_of_fixed {α β : Type} (f : α → α) (x : α) (hx : f x = x) :
    ∀ l : List β, l.foldl (fun a _ => f a) x = x
  | [] => rfl
  | _ :: l => by
    rw [List.foldl_cons, hx]
    exact foldl_const_of_fixed f x hx l

/-! ### The Cartesian product in `itertools` order -/

theorem length_product : ∀ ls : List (List ℚ), (product ls).length = prodLen ls
  | [] => rfl
  | l :: ls => by
    simp only [product, prodLen, List.length_flatMap, List.map_cons, List.prod_cons,
      Function.comp_def, List.length_map, length_product ls]
    rw [List.map_const', List.sum_replicate, smul_eq_mul, mul_comm]

theorem mem_product : ∀ {v : List ℚ} {ls : List (List ℚ)},
    v ∈ product ls ↔ List.Forall₂ (fun x l => x ∈ l) v ls := by
  intro v ls
  induction ls generalizing v with
  | nil =>
    simp only [product, List.mem_singleton, List.forall₂_nil_right_iff]
  | cons l ls ih =>
    constructor
    · intro hv
      simp only [product, List.mem_flatMap, List.mem_map] at hv
      obtain ⟨x, hx, w, hw, rfl⟩ := hv
      exact List.Forall₂.cons hx (ih.mp hw)
    · intro h
      cases h with
      | cons hx hw =>
        simp only [product, List.mem_flatMap, List.mem_map]
        exact ⟨_, hx, _, ih.mpr hw, rfl⟩

theorem flatMap_getElem? (F : ℚ → List (List ℚ)) (P : ℕ)
    (hP : ∀ x, (F x).length = P)
    (g : ℚ → ℕ → List ℚ) (hg : ∀ x k, k < P → (F x)[k]? = some (g x k)) :
    ∀ (l : List ℚ) (k : ℕ), k < l.length * P →
      (l.flatMap F)[k]? = some (g (l.getD (k / P) 0) (k % P))
  | [], k => by simp
  | x :: l, k => by
    intro hk
    have hPpos : 0 < P := by
      rcases Nat.eq_zero_or_pos P with h0 | h0
      · subst h0; simp at hk
      · exact h0
    rw [List.flatMap_cons]
    rcases Nat.lt_or_ge k P with h | h
    · rw [List.getElem?_append_left (by rw [hP]; exact h), hg x k h,
        Nat.div_eq_of_lt h, Nat.mod_eq_of_lt h]
      rfl
    · obtain ⟨j, rfl⟩ : ∃ j, k = j + P := ⟨k - P, (Nat.sub_add_cancel h).symm⟩
      have hj : j < l.length * P := by
        rw [List.length_cons, Nat.succ_mul] at hk; omega
      rw [List.getElem?_append_right (by rw [hP]; omega), hP,
        Nat.add_sub_cancel, flatMap_getElem? F P hP g hg l j hj,
        Nat.add_div_right j hPpos, Nat.add_mod_right j P]
      rfl

theorem product_getElem? : ∀ (ls : List (List ℚ)) (k : ℕ), k < prodLen ls →
    (product ls)[k]? = some (tupleAt ls k)
  | [], k => by
    intro hk
    have hk0 : k = 0 := by
      simp only [prodLen, List.map_nil, List.prod_nil] at hk; omega
    subst hk0; rfl
  | l :: ls, k => by
    intro hk
    have hP : ∀ x : ℚ, ((product ls).map (x :: ·)).length = prodLen ls := by
      intro x; rw [List.length_map, length_product]
    have hg : ∀ (x : ℚ) (j : ℕ), j < prodLen ls →
        ((product ls).map (x :: ·))[j]? = some (x :: tupleAt ls j) := by
      intro x j hj
      rw [List.getElem?_map, product_getElem? ls j hj]
      rfl
    have hk' : k < l.length * prodLen ls := by
      simpa [prodLen] using hk
    rw [show product (l :: ls) = l.flatMap (fun x => (product ls).map (x :: ·)) from rfl,
      flatMap_getElem? _ _ hP _ hg l k hk']
    rfl

theorem product_eq_map_range (ls : List (List ℚ)) :
    product ls = (List.range (prodLen ls)).map (tupleAt ls) := by
  apply List.ext_getElem?
  intro k
  rcases Nat.lt_or_ge k (prodLen ls) with h | h
  · rw [product_getElem? ls k h, List.getElem?_map, List.getElem?_range h]
    rfl
  · rw [List.getElem?_eq_none, List.getElem?_eq_none]
    · rw [List.length_map, List.length_range]; exact h
    · rw [length_product]; exact h

theorem product_take (ls : List (List ℚ)) (m : ℕ) :
    (product ls).take m = (List.range (min m (prodLen ls))).map (tupleAt ls) := by
  rw [product_eq_map_range, ← List.map_take, List.take_range]

/-! ### Characterization of the best-so-far fold used by the heuristics -/

theorem bestStep_foldl_spec (valid : List ℚ → Bool) (score : List ℚ → ℚ)
    (g : ℕ → List ℚ) (ts : List ℕ) :
    ((ts.foldl (fun a t => bestStep valid score a (g t)) none = none) ↔
      ∀ t ∈ ts, valid (g t) = false)
    ∧ (∀ b bd, ts.foldl (fun a t => bestStep valid score a (g t)) none = some (b, bd) →
        valid b = true ∧ bd = score b ∧ (∃ t ∈ ts, b = g t)
        ∧ ∀ t ∈ ts, valid (g t) = true → bd ≤ score (g t)) := by
  induction ts using List.reverseRecOn with
  | nil => simp
  | append_singleton ts t ih =>
    obtain ⟨ihnone, ihsome⟩ := ih
    have hfold : (ts ++ [t]).foldl (fun a s => bestStep valid score a (g s)) none
        = bestStep valid score (ts.foldl (fun a s => bestStep valid score a (g s)) none)
            (g t) := by
      rw [List.foldl_append]; rfl
    rcases hprev : ts.foldl (fun a s => bestStep valid score a (g s)) none with _ | ⟨b', bd'⟩
    · have hnone : ∀ s ∈ ts, valid (g s) = false := ihnone.mp hprev
      by_cases hv : valid (g t) = true
      · have hres : (ts ++ [t]).foldl (fun a s => bestStep valid score a (g s)) none
            = some (g t, score (g t)) := by
          rw [hfold, hprev]; simp [bestStep, hv]
        constructor
        · rw [hres]
          constructor
          · intro h; cases h
          · intro h; exact absurd (h t (by simp)) (by simp [hv])
        · intro b bd hb
          rw [hres] at hb
          simp only [Option.some.injEq, Prod.mk.injEq] at hb
          obtain ⟨rfl, rfl⟩ := hb
          refine ⟨hv, rfl, ⟨t, by simp, rfl⟩, ?_⟩
          intro s hs hvs
          rcases List.mem_append.mp hs with hs' | hs'
          · rw [hnone s hs'] at hvs; cases hvs
          · rw [List.mem_singleton.mp hs']
      · rw [Bool.not_eq_true] at hv
        have hres : (ts ++ [t]).foldl (fun a s => bestStep valid score a (g s)) none
            = none := by
          rw [hfold, hprev]; simp [bestStep, hv]
        constructor
        · rw [hres]
          constructor
          · intro _ s hs
            rcases List.mem_append.mp hs with hs' | hs'
            · exact hnone s hs'
            · rw [List.mem_singleton.mp hs']; exact hv
          · intro _; rfl
        · intro b bd hb
          rw [hres] at hb; cases hb
    · have hsome := ihsome b' bd' hprev
      obtain ⟨s0, hs0, hbs0⟩ := hsome.2.2.1
      by_cases hv : valid (g t) = true
      · by_cases hlt : score (g t) < bd'
        · have hres : (ts ++ [t]).foldl (fun a s => bestStep valid score a (g s)) none
              = some (g t, score (g t)) := by
            rw [hfold, hprev]; simp [bestStep, hv, hlt]
          constructor
          · rw [hres]
            constructor
            · intro h; cases h
            · intro h; exact absurd (h t (by simp)) (by simp [hv])
          · intro b bd hb
            rw [hres] at hb
            simp only [Option.some.injEq, Prod.mk.injEq] at hb
            obtain ⟨rfl, rfl⟩ := hb
            refine ⟨hv, rfl, ⟨t, by simp, rfl⟩, ?_⟩
            intro s hs hvs
            rcases List.mem_append.mp hs with hs' | hs'
            · exact le_of_lt (lt_of_lt_of_le hlt (hsome.2.2.2 s hs' hvs))
            · rw [List.mem_singleton.mp hs']
        · have hres : (ts ++ [t]).foldl (fun a s => bestStep valid score a (g s)) none
              = some (b', bd') := by
            rw [hfold, hprev]; simp [bestStep, hv, hlt]
          constructor
          · rw [hres]
            constructor
            · intro h; cases h
            · intro h; exact absurd (h t (by simp)) (by simp [hv])
          · intro b bd hb
            rw [hres] at hb
            simp only [Option.some.injEq, Prod.mk.injEq] at hb
            obtain ⟨rfl, rfl⟩ := hb
            refine ⟨hsome.1, hsome.2.1, ⟨s0, List.mem_append_left _ hs0, hbs0⟩, ?_⟩
            intro s hs hvs
            rcases List.mem_append.mp hs with hs' | hs'
            · exact hsome.2.2.2 s hs' hvs
            · rw [List.mem_singleton.mp hs']; exact le_of_not_lt hlt
      · rw [Bool.not_eq_true] at hv
        have hres : (ts ++ [t]).foldl (fun a s => bestStep valid score a (g s)) none
            = some (b', bd') := by
          rw [hfold, hprev]; simp [bestStep, hv]
        constructor
        · rw [hres]
          constructor
          · intro h; cases h
          · intro h
            have h0 := ihnone.mpr (fun s hs => h s (List.mem_append_left _ hs))
            rw [h0] at hprev; cases hprev
        · intro b bd hb
          rw [hres] at hb
          simp only [Option.some.injEq, Prod.mk.injEq] at hb
          obtain ⟨rfl, rfl⟩ := hb
          refine ⟨hsome.1, hsome.2.1, ⟨s0, List.mem_append_left _ hs0, hbs0⟩, ?_⟩
          intro s hs hvs
          rcases List.mem_append.mp hs with hs' | hs'
          · exact hsome.2.2.2 s hs' hvs
          · rw [List.mem_singleton.mp hs'] at hvs; rw [hvs] at hv; cases hv

/-! ### Claim C2: the candidate grid and its scenario windows -/

/-- The grid point formula as the spec states it:
`round(global_min + i * (global_max - global_min) / 8, 2)`. -/
def specGridPoint (global_min global_max : ℚ) (i : ℕ) : ℚ :=
  round2 (global_min + i * ((global_max - global_min) / 8))

/-- C2: for `global_max > global_min`, both versions of
`generate_candidate_prices` build the 9-point grid
`[round(global_min + i*(global_max-global_min)/8, 2) for i in 0..8]` and
return indices 6..8 for `"alta"`, 3..5 for `"moderada"`, 0..2 for `"baja"`,
and the full grid for any other scenario. -/
theorem candidate_grid_scenario_windows (gmin gmax : ℚ) (sc : String)
    (h : gmin < gmax) :
    PricingMaster.generate_candidate_prices gmin gmax sc =
      (if sc = "alta" then
        [specGridPoint gmin gmax 6, specGridPoint gmin gmax 7, specGridPoint gmin gmax 8]
       else if sc = "moderada" then
        [specGridPoint gmin gmax 3, specGridPoint gmin gmax 4, specGridPoint gmin gmax 5]
       else if sc = "baja" then
        [specGridPoint gmin gmax 0, specGridPoint gmin gmax 1, specGridPoint gmin gmax 2]
       else
        [specGridPoint gmin gmax 0, specGridPoint gmin gmax 1, specGridPoint gmin gmax 2,
         specGridPoint gmin gmax 3, specGridPoint gmin gmax 4, specGridPoint gmin gmax 5,
         specGridPoint gmin gmax 6, specGridPoint gmin gmax 7, specGridPoint gmin gmax 8])
    ∧ AppPricingBoletos.generate_candidate_prices gmin gmax sc =
      (if sc = "alta" then
        [specGridPoint gmin gmax 6, specGridPoint gmin gmax 7, specGridPoint gmin gmax 8]
       else if sc = "moderada" then
        [specGridPoint gmin gmax 3, specGridPoint gmin gmax 4, specGridPoint gmin gmax 5]
       else if sc = "baja" then
        [specGridPoint gmin gmax 0, specGridPoint gmin gmax 1, specGridPoint gmin gmax 2]
       else
        [specGridPoint gmin gmax 0, specGridPoint gmin gmax 1, specGridPoint gmin gmax 2,
         specGridPoint gmin gmax 3, specGridPoint gmin gmax 4, specGridPoint gmin gmax 5,
         specGridPoint gmin gmax 6, specGridPoint gmin gmax 7, specGridPoint gmin gmax 8]) := by
  have hne : gmax ≠ gmin := ne_of_gt h
  have hnle : ¬ gmax ≤ gmin := not_le.mpr h
  have hr : List.range 9 = [0, 1, 2, 3, 4, 5, 6, 7, 8] := rfl
  unfold PricingMaster.generate_candidate_prices AppPricingBoletos.generate_candidate_prices
  rw [if_neg hne, if_neg hnle]
  dsimp only
  simp only [hr, List.map_cons, List.map_nil]
  constructor <;>
  · split_ifs <;> simp [specGridPoint]

/-- C2 witness: the theorem applied at `global_min = 50 < 200 = global_max`,
scenario `"alta"`. -/
theorem candidate_grid_scenario_windows_witness :
    (50 : ℚ) < 200
    ∧ PricingMaster.generate_candidate_prices 50 200 "alta" =
        [specGridPoint 50 200 6, specGridPoint 50 200 7, specGridPoint 50 200 8] := by
  have h := candidate_grid_scenario_windows 50 200 "alta" (by norm_num)
  rw [if_pos rfl] at h
  exact ⟨by norm_num, h.1⟩

/-! ### Claim C3: the degenerate-bounds branch -/

/-- C3 counterexample: with `global_min = 2 > 1 = global_max`,
`PricingMaster.generate_candidate_prices` does not return `[global_min]`
(its guard is `==`, not `<=`), refuting the claim for the strict case. -/
theorem degenerate_bounds_counterexample :
    PricingMaster.generate_candidate_prices 2 1 "x" ≠ [2] := by
  have hlen : (PricingMaster.generate_candidate_prices 2 1 "x").length = 9 := by
    unfold PricingMaster.generate_candidate_prices
    rw [if_neg (by norm_num)]
    dsimp only
    rw [if_neg (by decide), if_neg (by decide), if_neg (by decide)]
    rw [List.length_map, List.length_range]
  intro h
  rw [h] at hlen
  simp at hlen

/-- C3 amended: `generate_candidate_prices` returns `[global_min]` exactly
when its degenerate guard holds — `global_max <= global_min` in the
appPricingBoletos version, but only `global_max == global_min` in the
PricingMaster version; when the guard fails the result is a 3- or 9-element
grid slice, never the singleton `[global_min]`. -/
theorem degenerate_bounds_amended (gmin gmax : ℚ) (sc : String) :
    (AppPricingBoletos.generate_candidate_prices gmin gmax sc = [gmin] ↔ gmax ≤ gmin)
    ∧ (PricingMaster.generate_candidate_prices gmin gmax sc = [gmin] ↔ gmax = gmin)
    ∧ (¬ gmax ≤ gmin →
        (AppPricingBoletos.generate_candidate_prices gmin gmax sc).length = 3
        ∨ (AppPricingBoletos.generate_candidate_prices gmin gmax sc).length = 9)
    ∧ (gmax ≠ gmin →
        (PricingMaster.generate_candidate_prices gmin gmax sc).length = 3
        ∨ (PricingMaster.generate_candidate_prices gmin gmax sc).length = 9) := by
  have happ : ¬ gmax ≤ gmin →
      (AppPricingBoletos.generate_candidate_prices gmin gmax sc).length = 3
      ∨ (AppPricingBoletos.generate_candidate_prices gmin gmax sc).length = 9 := by
    intro h
    unfold AppPricingBoletos.generate_candidate_prices
    rw [if_neg h]
    dsimp only
    split_ifs
    · left
      simp only [List.length_drop, List.length_map, List.length_range]
    · left
      simp only [List.length_take, List.length_drop, List.length_map, List.length_range]
      omega
    · left
      simp only [List.length_take, List.length_map, List.length_range]
      omega
    · right
      simp only [List.length_map, List.length_range]
  have hpm : gmax ≠ gmin →
      (PricingMaster.generate_candidate_prices gmin gmax sc).length = 3
      ∨ (PricingMaster.generate_candidate_prices gmin gmax sc).length = 9 := by
    intro h
    unfold PricingMaster.generate_candidate_prices
    rw [if_neg h]
    dsimp only
    split_ifs
    · left
      simp only [List.length_drop, List.length_map, List.length_range]
    · left
      simp only [List.length_take, List.length_drop, List.length_map, List.length_range]
      omega
    · left
      simp only [List.length_take, List.length_map, List.length_range]
      omega
    · right
      simp only [List.length_map, List.length_range]
  refine ⟨⟨?_, ?_⟩, ⟨?_, ?_⟩, happ, hpm⟩
  · intro h
    by_contra hng
    have hl := happ hng
    rw [h, List.length_singleton] at hl
    omega
  · intro h
    unfold AppPricingBoletos.generate_candidate_prices
    rw [if_pos h]
  · intro h
    by_contra hng
    have hl := hpm hng
    rw [h, List.length_singleton] at hl
    omega
  · intro h
    unfold PricingMaster.generate_candidate_prices
    rw [if_pos h]

/-- C3 witness: the amended theorem applied at concrete degenerate and
non-degenerate bounds. -/
theorem degenerate_bounds_amended_witness :
    AppPricingBoletos.generate_candidate_prices 3 2 "alta" = [3]
    ∧ PricingMaster.generate_candidate_prices 3 3 "alta" = [3]
    ∧ ((PricingMaster.generate_candidate_prices 3 2 "alta").length = 3
        ∨ (PricingMaster.generate_candidate_prices 3 2 "alta").length = 9) :=
  ⟨(degenerate_bounds_amended 3 2 "alta").1.mpr (by norm_num),
   (degenerate_bounds_amended 3 3 "alta").2.1.mpr rfl,
   (degenerate_bounds_amended 3 2 "alta").2.2.2 (by norm_num)⟩

/-! ### Claim C7: the revenue model -/

theorem zip_revenue_eq (r : ℚ) : ∀ (combo : List ℚ) (sections : List Section),
    combo.length = sections.length →
    ((combo.zip sections).map (fun ps => (ps.2.seats : ℚ) * r * ps.1)).sum =
      ∑ i ∈ Finset.range sections.length,
        ((sections.getD i ⟨"", 0⟩).seats : ℚ) * r * combo.getD i 0
  | [], [] => by simp
  | [], _ :: _ => by intro h; simp at h
  | _ :: _, [] => by intro h; simp at h
  | c :: cc, s :: ss => by
    intro h
    simp only [List.zip_cons_cons, List.map_cons, List.sum_cons]
    rw [zip_revenue_eq r cc ss (by simpa using h), List.length_cons,
      Finset.sum_range_succ']
    simp only [List.getD_cons_succ, List.getD_cons_zero]
    exact add_comm _ _

/-- C7: the revenue model is the seat-weighted sum at the scenario's
sell-through rate (0.98 / 0.90 / 0.85, default 0.95); it is a total
function (no exception). -/
theorem revenue_model_formula (combo : List ℚ) (sections : List Section)
    (sc : String) (h : combo.length = sections.length) :
    compute_revenue_for_combo combo sections sc =
      ∑ i ∈ Finset.range sections.length,
        ((sections.getD i ⟨"", 0⟩).seats : ℚ) *
          (if sc = "alta" then 98/100 else if sc = "moderada" then 90/100
           else if sc = "baja" then 85/100 else 95/100) * combo.getD i 0 := by
  have hrate : sellRate sc =
      (if sc = "alta" then (98:ℚ)/100 else if sc = "moderada" then 90/100
       else if sc = "baja" then 85/100 else 95/100) := by
    unfold sellRate
    split_ifs <;> rfl
  unfold compute_revenue_for_combo
  rw [zip_revenue_eq (sellRate sc) combo sections h]
  simp only [hrate]

/-- C7 witness: the theorem applied at a concrete two-section input. -/
theorem revenue_model_formula_witness :
    List.length [(10 : ℚ), 5] = List.length [Section.mk "a" 2, Section.mk "b" 3]
    ∧ compute_revenue_for_combo [10, 5] [Section.mk "a" 2, Section.mk "b" 3] "moderada" =
      ∑ i ∈ Finset.range (List.length [Section.mk "a" 2, Section.mk "b" 3]),
        ((List.getD [Section.mk "a" 2, Section.mk "b" 3] i ⟨"", 0⟩).seats : ℚ) *
          (if "moderada" = "alta" then 98/100 else if "moderada" = "moderada" then 90/100
           else if "moderada" = "baja" then 85/100 else 95/100) *
          List.getD [(10 : ℚ), 5] i 0 :=
  ⟨rfl, revenue_model_formula [10, 5] [Section.mk "a" 2, Section.mk "b" 3] "moderada" rfl⟩

/-! ### Claim C4: the exhaustive searches enumerate the capped product -/

/-- C4: both exhaustive searches return exactly the margin-valid tuples among
the first 100000 tuples of the Cartesian product of the per-section candidate
lists, in lexicographic product order (`tupleAt` is the mixed-radix indexing
in which section 0 varies slowest and the last section fastest), and never
return more than 100000 vectors. -/
theorem exhaustive_search_characterization (sections : List Section) (sc : String)
    (gmin gmax mf : ℚ) :
    PricingMaster.generate_combinations sections sc gmin gmax mf =
      ((List.range (min 100000 (prodLen ((List.range sections.length).map
          (fun _ => PricingMaster.generate_candidate_prices gmin gmax sc))))).map
        (tupleAt ((List.range sections.length).map
          (fun _ => PricingMaster.generate_candidate_prices gmin gmax sc)))).filter
        (fun combo => isValid mf combo)
    ∧ AppPricingBoletos.generate_valid_combinations sections sc gmin gmax mf =
      ((List.range (min 100000 (prodLen
          (AppPricingBoletos.gvcCandidates sections sc gmin gmax)))).map
        (tupleAt (AppPricingBoletos.gvcCandidates sections sc gmin gmax))).filter
        (fun combo => isValid mf combo)
    ∧ (PricingMaster.generate_combinations sections sc gmin gmax mf).length ≤ 100000
    ∧ (AppPricingBoletos.generate_valid_combinations sections sc gmin gmax mf).length ≤ 100000 := by
  refine ⟨?_, ?_, ?_, ?_⟩
  · simp only [PricingMaster.generate_combinations]
    rw [product_take]
  · simp only [AppPricingBoletos.generate_valid_combinations]
    rw [product_take]
  · simp only [PricingMaster.generate_combinations]
    exact le_trans (List.length_filter_le _ _) (by rw [List.length_take]; omega)
  · simp only [AppPricingBoletos.generate_valid_combinations]
    exact le_trans (List.length_filter_le _ _) (by rw [List.length_take]; omega)

/-! ### Claim C6: endpoint pinning -/

/-- C6: for at least two sections, `generate_valid_combinations` pins the
first section's candidate set to `[round(global_max, 2)]`, the last to
`[round(global_min, 2)]`, interior sections use the scenario-windowed grid,
and every returned vector starts with `round(global_max, 2)` and ends with
`round(global_min, 2)`. -/
theorem endpoint_pinning (sections : List Section) (sc : String)
    (gmin gmax mf : ℚ) (h2 : 2 ≤ sections.length) :
    (AppPricingBoletos.gvcCandidates sections sc gmin gmax).head? = some [round2 gmax]
    ∧ (AppPricingBoletos.gvcCandidates sections sc gmin gmax).getLast? = some [round2 gmin]
    ∧ (∀ i, 0 < i → i < sections.length - 1 →
        (AppPricingBoletos.gvcCandidates sections sc gmin gmax)[i]? =
          some (AppPricingBoletos.generate_candidate_prices gmin gmax sc))
    ∧ ∀ v ∈ AppPricingBoletos.generate_valid_combinations sections sc gmin gmax mf,
        v.head? = some (round2 gmax) ∧ v.getLast? = some (round2 gmin) := by
  have hn : 0 < sections.length := by omega
  have hglen : (AppPricingBoletos.gvcCandidates sections sc gmin gmax).length =
      sections.length := by
    rw [AppPricingBoletos.gvcCandidates, List.length_map, List.length_range]
  refine ⟨?_, ?_, ?_, ?_⟩
  · rw [List.head?_eq_getElem?, AppPricingBoletos.gvcCandidates, List.getElem?_map,
      List.getElem?_range hn]
    simp
  · rw [List.getLast?_eq_getElem?, hglen, AppPricingBoletos.gvcCandidates,
      List.getElem?_map, List.getElem?_range (by omega : sections.length - 1 < sections.length)]
    simp only [Option.map_some']
    rw [if_neg (by omega)]
    simp
  · intro i h0 hi
    rw [AppPricingBoletos.gvcCandidates, List.getElem?_map,
      List.getElem?_range (by omega : i < sections.length)]
    simp only [Option.map_some']
    rw [if_neg (by omega), if_neg (by omega)]
  · intro v hv
    have hvp : v ∈ product (AppPricingBoletos.gvcCandidates sections sc gmin gmax) :=
      List.mem_of_mem_take (List.mem_filter.mp hv).1
    obtain ⟨hlen, hget⟩ := List.forall₂_iff_get.mp (mem_product.mp hvp)
    have hlenv : v.length = sections.length := by rw [hlen, hglen]
    constructor
    · have h0 := hget 0 (by omega) (by omega)
      simp [AppPricingBoletos.gvcCandidates] at h0
      rw [List.head?_eq_getElem?, List.getElem?_eq_getElem (by omega : 0 < v.length), h0]
    · have hl := hget (sections.length - 1) (by omega) (by omega)
      simp only [List.get_eq_getElem, AppPricingBoletos.gvcCandidates, List.getElem_map,
        List.getElem_range] at hl
      rw [if_neg (by omega)] at hl
      simp at hl
      rw [List.getLast?_eq_getElem?, hlenv,
        List.getElem?_eq_getElem (by omega : sections.length - 1 < v.length), hl]

/-- C6 witness: two sections, bounds 50/200, margin factor 1.05. -/
theorem endpoint_pinning_witness :
    (AppPricingBoletos.gvcCandidates [Section.mk "A" 500, Section.mk "B" 500] "alta"
      50 200).head? = some [round2 200]
    ∧ (AppPricingBoletos.gvcCandidates [Section.mk "A" 500, Section.mk "B" 500] "alta"
      50 200).getLast? = some [round2 50] :=
  ⟨(endpoint_pinning [Section.mk "A" 500, Section.mk "B" 500] "alta" 50 200 (21/20)
      (by norm_num)).1,
   (endpoint_pinning [Section.mk "A" 500, Section.mk "B" 500] "alta" 50 200 (21/20)
      (by norm_num)).2.1⟩

/-! ### Claim C1: the margin invariant on every produced vector -/

/-- C1: every vector returned by either exhaustive search or by a successful
heuristic search satisfies `vector[i] >= margin_factor * vector[i+1]` for all
adjacent index pairs; vectors of length at most 1 are vacuously valid. -/
theorem margin_invariant_all_outputs (sections : List Section) (sc : String)
    (gmin gmax mf target : ℚ) (u : ℕ → ℚ) (v : List ℚ) :
    (v ∈ PricingMaster.generate_combinations sections sc gmin gmax mf
      ∨ v ∈ AppPricingBoletos.generate_valid_combinations sections sc gmin gmax mf
      ∨ PricingMaster.heuristic_search target sections gmin gmax mf u = some v
      ∨ AppPricingBoletos.heuristic_price_search target sections gmin gmax mf sc u = some v) →
    ∀ i, i + 1 < v.length → mf * v.getD (i + 1) 0 ≤ v.getD i 0 := by
  intro hv
  rw [← isValid_iff]
  rcases hv with h | h | h | h
  · simp only [PricingMaster.generate_combinations] at h
    exact (List.mem_filter.mp h).2
  · simp only [AppPricingBoletos.generate_valid_combinations] at h
    exact (List.mem_filter.mp h).2
  · simp only [PricingMaster.heuristic_search] at h
    obtain ⟨⟨b, bd⟩, hfold, hfst⟩ := Option.map_eq_some'.mp h
    have hbv : b = v := hfst
    subst hbv
    exact ((bestStep_foldl_spec (fun c => isValid mf c)
      (fun c => |compute_revenue_for_combo c sections "alta" - target|)
      (fun t => PricingMaster.trial sections gmin gmax mf u t)
      (List.range 10000)).2 b bd hfold).1
  · simp only [AppPricingBoletos.heuristic_price_search] at h
    obtain ⟨⟨b, bd⟩, hfold, hfst⟩ := Option.map_eq_some'.mp h
    have hbv : b = v := hfst
    subst hbv
    exact ((bestStep_foldl_spec (fun c => isValid mf c)
      (fun c => |compute_revenue_for_combo c sections sc - target|)
      (fun t => AppPricingBoletos.trial sections gmin gmax mf u t)
      (List.range 10000)).2 b bd hfold).1

/-- C1 witness: the exhaustive search at degenerate bounds 1..1 and margin
factor 1 returns `[1, 1]`, and the invariant instantiates at `i = 0`. -/
theorem margin_invariant_all_outputs_witness :
    (1 : ℚ) * List.getD [(1 : ℚ), 1] (0 + 1) 0 ≤ List.getD [(1 : ℚ), 1] 0 0 := by
  have hg : PricingMaster.generate_candidate_prices 1 1 "" = [1] := by
    unfold PricingMaster.generate_candidate_prices
    rw [if_pos rfl]
  have hprod : product [[(1 : ℚ)], [1]] = [[1, 1]] := by
    simp [product]
  have hmem : [(1 : ℚ), 1] ∈
      PricingMaster.generate_combinations [Section.mk "A" 500, Section.mk "B" 500] "" 1 1 1 := by
    simp only [PricingMaster.generate_combinations, hg,
      show List.range (List.length [Section.mk "A" 500, Section.mk "B" 500]) = [0, 1] from rfl,
      List.map_cons, List.map_nil, hprod]
    rw [List.take_of_length_le (by norm_num)]
    refine List.mem_filter.mpr ⟨by simp, ?_⟩
    show isValid 1 [1, 1] = true
    simp only [isValid, Bool.and_true]
    rw [decide_eq_true_eq]
    norm_num
  exact margin_invariant_all_outputs [Section.mk "A" 500, Section.mk "B" 500] "" 1 1 1 0
    (fun _ => 0) [1, 1] (Or.inl hmem) 0 (by norm_num)

/-! ### Claim C10: chain length of the improved heuristic -/

theorem app_chain_length (gmin mf : ℚ) : ∀ (ds : List ℚ) (prev : ℚ),
    (AppPricingBoletos.chain gmin mf prev ds).length = ds.length
  | [], _ => rfl
  | d :: ds, prev => by
    simp only [AppPricingBoletos.chain, List.length_cons]
    rw [app_chain_length gmin mf ds]

theorem app_trial_length (sections : List Section) (gmin gmax mf : ℚ)
    (u : ℕ → ℚ) (t : ℕ) :
    (AppPricingBoletos.trial sections gmin gmax mf u t).length = max 2 sections.length := by
  simp only [AppPricingBoletos.trial, List.length_append, List.length_cons,
    app_chain_length, draws, List.length_map, List.length_range, List.length_singleton,
    List.length_nil]
  omega

/-- C10: every candidate chain built by `heuristic_price_search` has length
`max 2 (number of sections)`: for at least two sections a returned vector has
one price per section, but for zero or one sections any returned vector is the
two-element vector `[round(global_max, 2), round(global_min, 2)]`. -/
theorem heuristic_chain_length (sections : List Section) (sc : String)
    (gmin gmax mf target : ℚ) (u : ℕ → ℚ) :
    (∀ t, (AppPricingBoletos.trial sections gmin gmax mf u t).length = max 2 sections.length)
    ∧ (∀ v, AppPricingBoletos.heuristic_price_search target sections gmin gmax mf sc u = some v →
        v.length = max 2 sections.length)
    ∧ (sections.length ≤ 1 →
        ∀ v, AppPricingBoletos.heuristic_price_search target sections gmin gmax mf sc u = some v →
          v = [round2 gmax, round2 gmin]) := by
  refine ⟨fun t => app_trial_length sections gmin gmax mf u t, ?_, ?_⟩
  · intro v h
    simp only [AppPricingBoletos.heuristic_price_search] at h
    obtain ⟨⟨b, bd⟩, hfold, hfst⟩ := Option.map_eq_some'.mp h
    have hbv : b = v := hfst
    obtain ⟨-, -, ⟨t, -, hbt⟩, -⟩ := (bestStep_foldl_spec (fun c => isValid mf c)
      (fun c => |compute_revenue_for_combo c sections sc - target|)
      (fun t => AppPricingBoletos.trial sections gmin gmax mf u t)
      (List.range 10000)).2 b bd hfold
    rw [← hbv, hbt, app_trial_length]
  · intro hle v h
    simp only [AppPricingBoletos.heuristic_price_search] at h
    obtain ⟨⟨b, bd⟩, hfold, hfst⟩ := Option.map_eq_some'.mp h
    have hbv : b = v := hfst
    obtain ⟨-, -, ⟨t, -, hbt⟩, -⟩ := (bestStep_foldl_spec (fun c => isValid mf c)
      (fun c => |compute_revenue_for_combo c sections sc - target|)
      (fun t => AppPricingBoletos.trial sections gmin gmax mf u t)
      (List.range 10000)).2 b bd hfold
    have htriv : AppPricingBoletos.trial sections gmin gmax mf u t =
        [round2 gmax, round2 gmin] := by
      simp only [AppPricingBoletos.trial, draws]
      rw [show sections.length - 2 = 0 from by omega]
      simp [AppPricingBoletos.chain]
    rw [← hbv, hbt, htriv]

/-! ### Constant-stream evaluations of the heuristics -/

theorem foldl_const_from_none {α β : Type} (f : Option α → Option α) (x : α)
    (h1 : f none = some x) (h2 : f (some x) = some x) :
    ∀ l : List β, l ≠ [] → l.foldl (fun a _ => f a) none = some x
  | [], h => absurd rfl h
  | _ :: l, _ => by
    rw [List.foldl_cons, h1]
    exact foldl_const_of_fixed f (some x) h2 l

theorem pm_trial_const (t : ℕ) :
    PricingMaster.trial [Section.mk "A" 500] 50 60 2 (fun _ => (1:ℚ)/2) t = [40] := by
  simp only [PricingMaster.trial, draws, List.length_singleton,
    show List.range 1 = [0] from rfl,
    List.map_cons, List.map_nil, PricingMaster.chain]
  norm_num [uniform, round2, roundHalfEven, ratFloor_eq_floor]

theorem hs_const_eval :
    PricingMaster.heuristic_search 0 [Section.mk "A" 500] 50 60 2 (fun _ => (1:ℚ)/2)
      = some [40] := by
  have hinit : bestStep (fun c => isValid 2 c)
      (fun c => |compute_revenue_for_combo c [Section.mk "A" 500] "alta" - 0|) none [40]
      = some ([40], 19600) := by
    norm_num [bestStep, isValid, compute_revenue_for_combo, sellRate, abs_of_nonneg]
  have hfix : bestStep (fun c => isValid 2 c)
      (fun c => |compute_revenue_for_combo c [Section.mk "A" 500] "alta" - 0|)
      (some ([40], 19600)) [40] = some ([40], 19600) := by
    norm_num [bestStep, isValid, compute_revenue_for_combo, sellRate, abs_of_nonneg]
  simp only [PricingMaster.heuristic_search, pm_trial_const]
  rw [foldl_const_from_none (fun a => bestStep (fun c => isValid 2 c)
      (fun c => |compute_revenue_for_combo c [Section.mk "A" 500] "alta" - 0|) a [40])
      ([40], 19600) hinit hfix (List.range 10000) (by simp)]
  rfl

theorem app_trial_const (t : ℕ) :
    AppPricingBoletos.trial [Section.mk "A" 500] 50 200 2 (fun _ => (1:ℚ)/2) t
      = [200, 50] := by
  simp only [AppPricingBoletos.trial, draws, List.length_singleton]
  rw [show (1 : ℕ) - 2 = 0 from rfl]
  simp only [List.range_zero, List.map_nil, AppPricingBoletos.chain]
  norm_num [round2, roundHalfEven, ratFloor_eq_floor]

theorem hps_const_eval :
    AppPricingBoletos.heuristic_price_search 0 [Section.mk "A" 500] 50 200 2 "alta"
      (fun _ => (1:ℚ)/2) = some [200, 50] := by
  have hinit : bestStep (fun c => isValid 2 c)
      (fun c => |compute_revenue_for_combo c [Section.mk "A" 500] "alta" - 0|) none [200, 50]
      = some ([200, 50], 98000) := by
    norm_num [bestStep, isValid, compute_revenue_for_combo, sellRate, abs_of_nonneg]
  have hfix : bestStep (fun c => isValid 2 c)
      (fun c => |compute_revenue_for_combo c [Section.mk "A" 500] "alta" - 0|)
      (some ([200, 50], 98000)) [200, 50] = some ([200, 50], 98000) := by
    norm_num [bestStep, isValid, compute_revenue_for_combo, sellRate, abs_of_nonneg]
  simp only [AppPricingBoletos.heuristic_price_search, app_trial_const]
  rw [foldl_const_from_none (fun a => bestStep (fun c => isValid 2 c)
      (fun c => |compute_revenue_for_combo c [Section.mk "A" 500] "alta" - 0|) a [200, 50])
      ([200, 50], 98000) hinit hfix (List.range 10000) (by simp)]
  rfl

/-- C10 witness: with a single section, the returned vector is the pinned
two-element chain, longer than the sections list. -/
theorem heuristic_chain_length_witness :
    List.length [(200 : ℚ), 50] = max 2 (List.length [Section.mk "A" 500])
    ∧ [(200 : ℚ), 50] = [round2 200, round2 50] :=
  ⟨(heuristic_chain_length [Section.mk "A" 500] "alta" 50 200 2 0 (fun _ => (1:ℚ)/2)).2.1
      [200, 50] hps_const_eval,
   (heuristic_chain_length [Section.mk "A" 500] "alta" 50 200 2 0 (fun _ => (1:ℚ)/2)).2.2
      (by norm_num) [200, 50] hps_const_eval⟩

/-! ### Claim C9: full characterization of the heuristic searches -/

theorem compute_revenue_eq_rate (c : List ℚ) (s : List Section) (sc : String) :
    compute_revenue_for_combo c s sc = revenueAtRate (sellRate sc) c s := rfl

theorem sellRate_alta : sellRate "alta" = 98/100 := by
  norm_num [sellRate]

/-- C9: with the random source as an explicit stream, each heuristic runs
exactly 10000 trials; it returns none iff no trial's chain passes the margin
re-check, and otherwise returns a passing chain whose distance between the
modeled revenue and the target is minimal over all passing trials — the basic
variant scoring revenue at the fixed 0.98 ("alta") rate, the improved variant
at the caller-specified scenario's rate. -/
theorem heuristic_search_characterization (sections : List Section)
    (gmin gmax mf target : ℚ) (sc : String) (u : ℕ → ℚ) :
    (PricingMaster.heuristic_search target sections gmin gmax mf u = none ↔
      ∀ t < 10000, isValid mf (PricingMaster.trial sections gmin gmax mf u t) = false)
    ∧ (∀ v, PricingMaster.heuristic_search target sections gmin gmax mf u = some v →
        isValid mf v = true
        ∧ (∃ t < 10000, v = PricingMaster.trial sections gmin gmax mf u t)
        ∧ ∀ t < 10000,
            isValid mf (PricingMaster.trial sections gmin gmax mf u t) = true →
            |revenueAtRate (98/100) v sections - target| ≤
              |revenueAtRate (98/100) (PricingMaster.trial sections gmin gmax mf u t)
                sections - target|)
    ∧ (AppPricingBoletos.heuristic_price_search target sections gmin gmax mf sc u = none ↔
        ∀ t < 10000, isValid mf (AppPricingBoletos.trial sections gmin gmax mf u t) = false)
    ∧ (∀ v, AppPricingBoletos.heuristic_price_search target sections gmin gmax mf sc u
          = some v →
        isValid mf v = true
        ∧ (∃ t < 10000, v = AppPricingBoletos.trial sections gmin gmax mf u t)
        ∧ ∀ t < 10000,
            isValid mf (AppPricingBoletos.trial sections gmin gmax mf u t) = true →
            |revenueAtRate (sellRate sc) v sections - target| ≤
              |revenueAtRate (sellRate sc) (AppPricingBoletos.trial sections gmin gmax mf u t)
                sections - target|) := by
  have hpm := bestStep_foldl_spec (fun c => isValid mf c)
    (fun c => |compute_revenue_for_combo c sections "alta" - target|)
    (fun t => PricingMaster.trial sections gmin gmax mf u t) (List.range 10000)
  have happ := bestStep_foldl_spec (fun c => isValid mf c)
    (fun c => |compute_revenue_for_combo c sections sc - target|)
    (fun t => AppPricingBoletos.trial sections gmin gmax mf u t) (List.range 10000)
  refine ⟨?_, ?_, ?_, ?_⟩
  · simp only [PricingMaster.heuristic_search, Option.map_eq_none']
    rw [hpm.1]
    simp [List.mem_range]
  · intro v h
    simp only [PricingMaster.heuristic_search] at h
    obtain ⟨⟨b, bd⟩, hfold, hfst⟩ := Option.map_eq_some'.mp h
    have hbv : b = v := hfst
    subst hbv
    obtain ⟨hval, hbd, ⟨t, ht, hbt⟩, hmin⟩ := hpm.2 b bd hfold
    refine ⟨hval, ⟨t, List.mem_range.mp ht, hbt⟩, ?_⟩
    intro s hs hvs
    have hle := hmin s (List.mem_range.mpr hs) hvs
    rw [hbd] at hle
    simpa only [compute_revenue_eq_rate, sellRate_alta] using hle
  · simp only [AppPricingBoletos.heuristic_price_search, Option.map_eq_none']
    rw [happ.1]
    simp [List.mem_range]
  · intro v h
    simp only [AppPricingBoletos.heuristic_price_search] at h
    obtain ⟨⟨b, bd⟩, hfold, hfst⟩ := Option.map_eq_some'.mp h
    have hbv : b = v := hfst
    subst hbv
    obtain ⟨hval, hbd, ⟨t, ht, hbt⟩, hmin⟩ := happ.2 b bd hfold
    refine ⟨hval, ⟨t, List.mem_range.mp ht, hbt⟩, ?_⟩
    intro s hs hvs
    have hle := hmin s (List.mem_range.mpr hs) hvs
    rw [hbd] at hle
    simpa only [compute_revenue_eq_rate] using hle

/-- C9 witness: the minimality conclusion instantiated against trial 7 of the
constant-stream run that returns `[40]`. -/
theorem heuristic_search_characterization_witness :
    |revenueAtRate (98/100) [40] [Section.mk "A" 500] - 0| ≤
      |revenueAtRate (98/100)
        (PricingMaster.trial [Section.mk "A" 500] 50 60 2 (fun _ => (1:ℚ)/2) 7)
        [Section.mk "A" 500] - 0| :=
  ((heuristic_search_characterization [Section.mk "A" 500] 50 60 2 0 "alta"
      (fun _ => (1:ℚ)/2)).2.1 [40] hs_const_eval).2.2 7 (by norm_num)
    (by rw [pm_trial_const]; simp [isValid])

/-! ### Claim C5: price bounds -/

theorem forall₂_mem_exists {v : List ℚ} {ls : List (List ℚ)}
    (h : List.Forall₂ (fun x l => x ∈ l) v ls) : ∀ p ∈ v, ∃ l ∈ ls, p ∈ l := by
  induction h with
  | nil => intro p hp; cases hp
  | cons ha _ ih =>
    intro p hp
    rcases List.mem_cons.mp hp with rfl | hp
    · exact ⟨_, List.mem_cons_self _ _, ha⟩
    · obtain ⟨l', hl', hpl⟩ := ih p hp
      exact ⟨l', List.mem_cons_of_mem _ hl', hpl⟩

theorem grid_bounds (gmin gmax : ℚ) (h : gmin ≤ gmax) (p : ℚ)
    (hp : p ∈ (List.range 9).map
      (fun i : ℕ => round2 (gmin + (i : ℚ) * ((gmax - gmin) / 8)))) :
    gmin - 1/200 ≤ p ∧ p ≤ gmax + 1/200 := by
  simp only [List.mem_map, List.mem_range] at hp
  obtain ⟨i, hi, rfl⟩ := hp
  have hc8 : (i : ℚ) ≤ 8 := by exact_mod_cast Nat.le_of_lt_succ hi
  have hc0 : (0 : ℚ) ≤ i := Nat.cast_nonneg i
  have hstep : (0 : ℚ) ≤ (gmax - gmin) / 8 := by linarith
  have h1 : gmin ≤ gmin + (i : ℚ) * ((gmax - gmin) / 8) := by
    nlinarith [mul_nonneg hc0 hstep]
  have h2 : gmin + (i : ℚ) * ((gmax - gmin) / 8) ≤ gmax := by
    nlinarith [mul_nonneg (by linarith : (0:ℚ) ≤ 8 - i) hstep]
  exact ⟨by linarith [round2_ge (gmin + (i : ℚ) * ((gmax - gmin) / 8))],
         by linarith [round2_le (gmin + (i : ℚ) * ((gmax - gmin) / 8))]⟩

theorem gcp_bounds_PM (gmin gmax : ℚ) (sc : String) (h : gmin ≤ gmax) (p : ℚ)
    (hp : p ∈ PricingMaster.generate_candidate_prices gmin gmax sc) :
    gmin - 1/200 ≤ p ∧ p ≤ gmax + 1/200 := by
  unfold PricingMaster.generate_candidate_prices at hp
  by_cases hq : gmax = gmin
  · rw [if_pos hq, List.mem_singleton] at hp
    subst hp
    constructor <;> linarith
  · rw [if_neg hq] at hp
    dsimp only at hp
    split_ifs at hp
    · exact grid_bounds gmin gmax h p (List.mem_of_mem_drop hp)
    · exact grid_bounds gmin gmax h p (List.mem_of_mem_drop (List.mem_of_mem_take hp))
    · exact grid_bounds gmin gmax h p (List.mem_of_mem_take hp)
    · exact grid_bounds gmin gmax h p hp

theorem gcp_bounds_App (gmin gmax : ℚ) (sc : String) (h : gmin ≤ gmax) (p : ℚ)
    (hp : p ∈ AppPricingBoletos.generate_candidate_prices gmin gmax sc) :
    gmin - 1/200 ≤ p ∧ p ≤ gmax + 1/200 := by
  unfold AppPricingBoletos.generate_candidate_prices at hp
  by_cases hq : gmax ≤ gmin
  · rw [if_pos hq, List.mem_singleton] at hp
    subst hp
    constructor <;> linarith
  · rw [if_neg hq] at hp
    dsimp only at hp
    split_ifs at hp
    · exact grid_bounds gmin gmax h p (List.mem_of_mem_drop hp)
    · exact grid_bounds gmin gmax h p (List.mem_of_mem_drop (List.mem_of_mem_take hp))
    · exact grid_bounds gmin gmax h p (List.mem_of_mem_take hp)
    · exact grid_bounds gmin gmax h p hp

theorem pm_chain_ub (gmin gmax mf : ℚ) (h0 : 0 ≤ gmin) (h1 : gmin ≤ gmax) (hmf : 1 ≤ mf) :
    ∀ (ds : List ℚ) (prev : ℚ), 0 ≤ prev → prev ≤ gmax →
      (∀ d ∈ ds, 0 ≤ d ∧ d ≤ 1) →
      ∀ p ∈ PricingMaster.chain gmin mf prev ds, p ≤ gmax + 1/200
  | [], _ => by
    intro _ _ _ p hp
    simp [PricingMaster.chain] at hp
  | d :: ds, prev => by
    intro hp0 hpm hd p hp
    have hq0 : 0 ≤ prev / mf := div_nonneg hp0 (by linarith)
    have hqm : prev / mf ≤ gmax := le_trans (div_le_self hp0 hmf) hpm
    have hub := uniform_bounds gmin (prev / mf) d (hd d (List.mem_cons_self d ds)).1
      (hd d (List.mem_cons_self d ds)).2
    have hpr0 : 0 ≤ uniform gmin (prev / mf) d := le_trans (le_min h0 hq0) hub.1
    have hprm : uniform gmin (prev / mf) d ≤ gmax := le_trans hub.2 (max_le h1 hqm)
    simp only [PricingMaster.chain, List.mem_cons] at hp
    rcases hp with rfl | hp
    · linarith [round2_le (uniform gmin (prev / mf) d)]
    · exact pm_chain_ub gmin gmax mf h0 h1 hmf ds (uniform gmin (prev / mf) d) hpr0 hprm
        (fun x hx => hd x (List.mem_cons_of_mem d hx)) p hp

theorem app_chain_ub (gmin gmax mf : ℚ) (h0 : 0 ≤ gmin) (h1 : gmin ≤ gmax) (hmf : 1 ≤ mf) :
    ∀ (ds : List ℚ) (prev : ℚ), 0 ≤ prev → prev ≤ gmax →
      (∀ d ∈ ds, 0 ≤ d ∧ d ≤ 1) →
      ∀ p ∈ AppPricingBoletos.chain gmin mf prev ds, p ≤ gmax + 1/200
  | [], _ => by
    intro _ _ _ p hp
    simp [AppPricingBoletos.chain] at hp
  | d :: ds, prev => by
    intro hp0 hpm hd p hp
    have hq0 : 0 ≤ prev / mf := div_nonneg hp0 (by linarith)
    have hqm : prev / mf ≤ gmax := le_trans (div_le_self hp0 hmf) hpm
    have hq95 : 0 ≤ prev / mf * (95/100) := by nlinarith
    have hq95m : prev / mf * (95/100) ≤ gmax := by nlinarith
    have hmin0 : 0 ≤ max gmin (prev / mf * (95/100)) := le_trans h0 (le_max_left _ _)
    have hminm : max gmin (prev / mf * (95/100)) ≤ gmax := max_le h1 hq95m
    have hub := uniform_bounds (max gmin (prev / mf * (95/100))) (prev / mf) d
      (hd d (List.mem_cons_self d ds)).1 (hd d (List.mem_cons_self d ds)).2
    have hpr0 : 0 ≤ uniform (max gmin (prev / mf * (95/100))) (prev / mf) d :=
      le_trans (le_min hmin0 hq0) hub.1
    have hprm : uniform (max gmin (prev / mf * (95/100))) (prev / mf) d ≤ gmax :=
      le_trans hub.2 (max_le hminm hqm)
    simp only [AppPricingBoletos.chain, List.mem_cons] at hp
    rcases hp with rfl | hp
    · linarith [round2_le (uniform (max gmin (prev / mf * (95/100))) (prev / mf) d)]
    · exact app_chain_ub gmin gmax mf h0 h1 hmf ds _ hpr0 hprm
        (fun x hx => hd x (List.mem_cons_of_mem d hx)) p hp

theorem draws_bounds (u : ℕ → ℚ) (hu : ∀ n, 0 ≤ u n ∧ u n ≤ 1) (n t : ℕ) :
    ∀ d ∈ draws u n t, 0 ≤ d ∧ d ≤ 1 := by
  intro d hd
  simp only [draws, List.mem_map, List.mem_range] at hd
  obtain ⟨i, -, rfl⟩ := hd
  exact hu _

/-- C5 counterexample: the claim "every generated or accepted price lies in
`[global_min, global_max]`" fails twice: the candidate grid rounds
`global_min = 1.004` down to `1.0 < global_min`, and with `margin_factor = 2`
the basic heuristic's sampling interval `[global_min, prev/margin_factor]`
inverts, returning the vector `[40]` whose component is below
`global_min = 50`. -/
theorem price_bounds_counterexample :
    ((1 : ℚ) ∈ AppPricingBoletos.generate_candidate_prices (251/250) 2 "baja"
      ∧ (1 : ℚ) < 251/250)
    ∧ (PricingMaster.heuristic_search 0 [Section.mk "A" 500] 50 60 2 (fun _ => (1:ℚ)/2)
        = some [40] ∧ (40 : ℚ) < 50) := by
  refine ⟨⟨?_, by norm_num⟩, hs_const_eval, by norm_num⟩
  unfold AppPricingBoletos.generate_candidate_prices
  rw [if_neg (by norm_num)]
  dsimp only
  rw [if_neg (by decide), if_neg (by decide), if_pos rfl]
  rw [show List.range 9 = [0, 1, 2, 3, 4, 5, 6, 7, 8] from rfl]
  simp only [List.map_cons, List.map_nil]
  show (1 : ℚ) ∈ [round2 (251/250 + ((0:ℕ) : ℚ) * ((2 - 251/250) / 8)),
    round2 (251/250 + ((1:ℕ) : ℚ) * ((2 - 251/250) / 8)),
    round2 (251/250 + ((2:ℕ) : ℚ) * ((2 - 251/250) / 8))]
  refine List.mem_cons.mpr (Or.inl ?_)
  norm_num [round2, roundHalfEven, ratFloor_eq_floor]

/-- C5 amended: candidate grids and exhaustive-search vectors lie in
`[global_min - 0.005, global_max + 0.005]` (each price is a 2-decimal rounding
of a point of `[global_min, global_max]`), and for nonnegative bounds and
margin factor at least 1 every heuristic-search component is at most
`global_max + 0.005`; heuristic components can fall below `global_min`. -/
theorem price_bounds_amended (sections : List Section) (sc : String)
    (gmin gmax mf target : ℚ) (u : ℕ → ℚ)
    (h0 : 0 ≤ gmin) (h1 : gmin ≤ gmax) (hmf : 1 ≤ mf)
    (hu : ∀ n, 0 ≤ u n ∧ u n ≤ 1) :
    (∀ p ∈ PricingMaster.generate_candidate_prices gmin gmax sc,
        gmin - 1/200 ≤ p ∧ p ≤ gmax + 1/200)
    ∧ (∀ p ∈ AppPricingBoletos.generate_candidate_prices gmin gmax sc,
        gmin - 1/200 ≤ p ∧ p ≤ gmax + 1/200)
    ∧ (∀ v ∈ PricingMaster.generate_combinations sections sc gmin gmax mf,
        ∀ p ∈ v, gmin - 1/200 ≤ p ∧ p ≤ gmax + 1/200)
    ∧ (∀ v ∈ AppPricingBoletos.generate_valid_combinations sections sc gmin gmax mf,
        ∀ p ∈ v, gmin - 1/200 ≤ p ∧ p ≤ gmax + 1/200)
    ∧ (∀ v, PricingMaster.heuristic_search target sections gmin gmax mf u = some v →
        ∀ p ∈ v, p ≤ gmax + 1/200)
    ∧ (∀ v, AppPricingBoletos.heuristic_price_search target sections gmin gmax mf sc u
          = some v → ∀ p ∈ v, p ≤ gmax + 1/200) := by
  refine ⟨fun p hp => gcp_bounds_PM gmin gmax sc h1 p hp,
    fun p hp => gcp_bounds_App gmin gmax sc h1 p hp, ?_, ?_, ?_, ?_⟩
  · intro v hv p hp
    simp only [PricingMaster.generate_combinations] at hv
    have hvp := List.mem_of_mem_take (List.mem_filter.mp hv).1
    obtain ⟨l, hl, hpl⟩ := forall₂_mem_exists (mem_product.mp hvp) p hp
    simp only [List.mem_map, List.mem_range] at hl
    obtain ⟨i, -, rfl⟩ := hl
    exact gcp_bounds_PM gmin gmax sc h1 p hpl
  · intro v hv p hp
    simp only [AppPricingBoletos.generate_valid_combinations] at hv
    have hvp := List.mem_of_mem_take (List.mem_filter.mp hv).1
    obtain ⟨l, hl, hpl⟩ := forall₂_mem_exists (mem_product.mp hvp) p hp
    simp only [AppPricingBoletos.gvcCandidates, List.mem_map, List.mem_range] at hl
    obtain ⟨i, -, rfl⟩ := hl
    split_ifs at hpl
    · rw [List.mem_singleton] at hpl
      subst hpl
      exact ⟨by linarith [round2_ge gmax], by linarith [round2_le gmax]⟩
    · rw [List.mem_singleton] at hpl
      subst hpl
      exact ⟨by linarith [round2_ge gmin], by linarith [round2_le gmin]⟩
    · exact gcp_bounds_App gmin gmax sc h1 p hpl
  · intro v h p hp
    simp only [PricingMaster.heuristic_search] at h
    obtain ⟨⟨b, bd⟩, hfold, hfst⟩ := Option.map_eq_some'.mp h
    have hbv : b = v := hfst
    subst hbv
    obtain ⟨-, -, ⟨t, -, hbt⟩, -⟩ := (bestStep_foldl_spec (fun c => isValid mf c)
      (fun c => |compute_revenue_for_combo c sections "alta" - target|)
      (fun t => PricingMaster.trial sections gmin gmax mf u t)
      (List.range 10000)).2 b bd hfold
    rw [hbt] at hp
    exact pm_chain_ub gmin gmax mf h0 h1 hmf _ gmax (by linarith) le_rfl
      (draws_bounds u hu _ t) p hp
  · intro v h p hp
    simp only [AppPricingBoletos.heuristic_price_search] at h
    obtain ⟨⟨b, bd⟩, hfold, hfst⟩ := Option.map_eq_some'.mp h
    have hbv : b = v := hfst
    subst hbv
    obtain ⟨-, -, ⟨t, -, hbt⟩, -⟩ := (bestStep_foldl_spec (fun c => isValid mf c)
      (fun c => |compute_revenue_for_combo c sections sc - target|)
      (fun t => AppPricingBoletos.trial sections gmin gmax mf u t)
      (List.range 10000)).2 b bd hfold
    rw [hbt] at hp
    simp only [AppPricingBoletos.trial, List.mem_append, List.mem_cons,
      List.mem_singleton] at hp
    rcases hp with (rfl | hp) | (rfl | hfalse)
    · linarith [round2_le gmax]
    · exact app_chain_ub gmin gmax mf h0 h1 hmf _ gmax (by linarith) le_rfl
        (draws_bounds u hu _ t) p hp
    · linarith [round2_le gmin]
    · cases hfalse

/-- C5 witness: the amended bounds at the grid point `50` of the `"baja"`
window for bounds 50..200. -/
theorem price_bounds_amended_witness :
    (50 : ℚ) - 1/200 ≤ 50 ∧ (50 : ℚ) ≤ 200 + 1/200 := by
  have hmem : (50 : ℚ) ∈ PricingMaster.generate_candidate_prices 50 200 "baja" := by
    unfold PricingMaster.generate_candidate_prices
    rw [if_neg (by norm_num)]
    dsimp only
    rw [if_neg (by decide), if_neg (by decide), if_pos rfl]
    rw [show List.range 9 = [0, 1, 2, 3, 4, 5, 6, 7, 8] from rfl]
    simp only [List.map_cons, List.map_nil]
    show (50 : ℚ) ∈ [round2 (50 + ((0:ℕ) : ℚ) * ((200 - 50) / 8)),
      round2 (50 + ((1:ℕ) : ℚ) * ((200 - 50) / 8)),
      round2 (50 + ((2:ℕ) : ℚ) * ((200 - 50) / 8))]
    refine List.mem_cons.mpr (Or.inl ?_)
    norm_num [round2, roundHalfEven, ratFloor_eq_floor]
  exact (price_bounds_amended [Section.mk "A" 500] "baja" 50 200 (21/20) 0 (fun _ => 0)
    (by norm_num) (by norm_num) (by norm_num) (fun n => ⟨le_rfl, by norm_num⟩)).1 50 hmem

/-! ### Claim C8: ranking of the top 3 vectors -/

/-- C8: the ranking step returns at most 3 vectors, sorted non-decreasingly by
`abs(revenue - target)` with revenue at the fixed 0.95 rate; the sort is
stable (each key class keeps its original enumeration order) and the first
returned vector has minimal distance among all candidates. -/
theorem ranking_top3 (combos : List (List ℚ)) (sections : List Section) (target : ℚ) :
    (AppPricingBoletos.top_combos combos sections target).length ≤ 3
    ∧ List.Sorted (AppPricingBoletos.rankLE sections target)
        (AppPricingBoletos.top_combos combos sections target)
    ∧ (∀ q : ℚ,
        (List.insertionSort (AppPricingBoletos.rankLE sections target) combos).filter
            (fun v => decide (AppPricingBoletos.rankKey sections target v = q))
          = combos.filter (fun v => decide (AppPricingBoletos.rankKey sections target v = q)))
    ∧ ∀ v, (AppPricingBoletos.top_combos combos sections target).head? = some v →
        ∀ w ∈ combos, AppPricingBoletos.rankKey sections target v ≤
          AppPricingBoletos.rankKey sections target w := by
  haveI htot : IsTotal (List ℚ) (AppPricingBoletos.rankLE sections target) :=
    ⟨fun a b => le_total _ _⟩
  haveI htr : IsTrans (List ℚ) (AppPricingBoletos.rankLE sections target) :=
    ⟨fun a b c hab hbc => le_trans hab hbc⟩
  have hsorted : List.Sorted (AppPricingBoletos.rankLE sections target)
      (List.insertionSort (AppPricingBoletos.rankLE sections target) combos) :=
    List.sorted_insertionSort _ _
  refine ⟨?_, ?_, ?_, ?_⟩
  · simp only [AppPricingBoletos.top_combos]
    rw [List.length_take]
    omega
  · exact List.Pairwise.sublist (List.take_sublist 3 _) hsorted
  · intro q
    have hpairA : (combos.filter
        (fun v => decide (AppPricingBoletos.rankKey sections target v = q))).Pairwise
        (AppPricingBoletos.rankLE sections target) := by
      apply pairwise_of_forall_mem
      intro a ha b hb
      have ha2 : AppPricingBoletos.rankKey sections target a = q :=
        of_decide_eq_true (List.mem_filter.mp ha).2
      have hb2 : AppPricingBoletos.rankKey sections target b = q :=
        of_decide_eq_true (List.mem_filter.mp hb).2
      show AppPricingBoletos.rankKey sections target a ≤
        AppPricingBoletos.rankKey sections target b
      rw [ha2, hb2]
    have hsubA := List.sublist_insertionSort hpairA (List.filter_sublist combos)
    have heqA : (combos.filter
          (fun v => decide (AppPricingBoletos.rankKey sections target v = q))).filter
          (fun v => decide (AppPricingBoletos.rankKey sections target v = q))
        = combos.filter (fun v => decide (AppPricingBoletos.rankKey sections target v = q)) :=
      List.filter_eq_self.mpr (fun a ha => (List.mem_filter.mp ha).2)
    have hsub2 := hsubA.filter
      (fun v => decide (AppPricingBoletos.rankKey sections target v = q))
    rw [heqA] at hsub2
    have hperm := (List.perm_insertionSort
      (AppPricingBoletos.rankLE sections target) combos).filter
      (fun v => decide (AppPricingBoletos.rankKey sections target v = q))
    exact (hsub2.eq_of_length hperm.length_eq.symm).symm
  · intro v hv w hw
    simp only [AppPricingBoletos.top_combos] at hv
    rw [List.head?_take, if_neg (by norm_num)] at hv
    have hw' : w ∈ List.insertionSort (AppPricingBoletos.rankLE sections target) combos := by
      rw [List.mem_insertionSort]
      exact hw
    cases hS : List.insertionSort (AppPricingBoletos.rankLE sections target) combos with
    | nil =>
      rw [hS] at hv
      cases hv
    | cons a tl =>
      rw [hS] at hv hw'
      have hav : a = v := by
        simpa using hv
      subst hav
      rcases List.mem_cons.mp hw' with rfl | hwtl
      · exact le_rfl
      · exact List.rel_of_sorted_cons (hS ▸ hsorted) w hwtl

/-- C8 witness: with target 0 and one 1-seat section, `[1]` ranks before
`[2]`, and the first ranked vector has minimal key. -/
theorem ranking_top3_witness :
    AppPricingBoletos.rankKey [Section.mk "a" 1] 0 [1] ≤
      AppPricingBoletos.rankKey [Section.mk "a" 1] 0 [2] := by
  have hc : ¬ AppPricingBoletos.rankLE [Section.mk "a" 1] 0 [2] [1] := by
    simp only [AppPricingBoletos.rankLE, AppPricingBoletos.rankKey, List.zip_cons_cons,
      List.zip_nil_left, List.map_cons, List.map_nil, List.sum_cons, List.sum_nil]
    rw [abs_of_nonneg (by norm_num), abs_of_nonneg (by norm_num)]
    norm_num
  have hsort : List.insertionSort (AppPricingBoletos.rankLE [Section.mk "a" 1] 0)
      [[2], [1]] = [[1], [2]] := by
    simp only [List.insertionSort, List.orderedInsert]
    rw [if_neg hc]
  have hhead : (AppPricingBoletos.top_combos [[2], [1]] [Section.mk "a" 1] 0).head?
      = some [1] := by
    simp only [AppPricingBoletos.top_combos, hsort]
    rfl
  exact (ranking_top3 [[2], [1]] [Section.mk "a" 1] 0).2.2.2 [1] hhead [2] (by simp)

end Pricing
